import Mathlib

/-!
Verification of the header-matching and in-place rewrite algorithm of
fix-license-header (src/fix_license_header/fix_license_header.py).

Byte strings are modelled as `List Nat` (one entry per byte; 10 is the
newline byte, 13 the carriage return).  The Python file object is modelled
as the list of all bytes of the stream; `readline` splits off the first
line (up to and including the first newline byte, as Python's
`readline` does).  The classification loop of `fix_file` is modelled with
explicit fuel, because the Python loop does not terminate for every
argument combination (an empty comment-prefix string, for instance, makes
`line.startswith(prefix)` hold forever at end of file); `none` signals
fuel exhaustion.  `fix_file` itself supplies fuel `input.length + 1`,
which is proved sufficient whenever the loop terminates at all.
-/

namespace FixLicenseHeader

/-- Python `bytes.isspace` on a single byte: the six ASCII whitespace
bytes stripped by `bytes.strip()`. -/
def isspace (b : Nat) : Bool :=
  b = 9 || b = 10 || b = 11 || b = 12 || b = 13 || b = 32

/-- Python `bytes.lstrip()`: drop leading ASCII whitespace. -/
def lstrip (l : List Nat) : List Nat := l.dropWhile isspace

/-- Python `bytes.rstrip()`: drop trailing ASCII whitespace. -/
def rstrip (l : List Nat) : List Nat := (l.reverse.dropWhile isspace).reverse

/-- Python `bytes.strip()`: drop leading and trailing ASCII whitespace. -/
def strip (l : List Nat) : List Nat := rstrip (lstrip l)

/-- Python `l.startswith(s)` on byte strings. -/
def startswith : List Nat → List Nat → Bool
  | [], _ => true
  | _ :: _, [] => false
  | a :: s, b :: l => if a = b then startswith s l else false

/-- Python `l.endswith(s)` on byte strings. -/
def endswith (s l : List Nat) : Bool := startswith s.reverse l.reverse

/-- Python `f.readline()` on the remaining stream: returns the first
line (including its terminating newline byte, when present) and the rest
of the stream. -/
def readline : List Nat → List Nat × List Nat
  | [] => ([], [])
  | b :: rest =>
    if b = 10 then ([10], rest)
    else
      let p := readline rest
      (b :: p.1, p.2)

/-- The result of the classification loop of `fix_file`:
`(before, after, file_header, file_contents)`. -/
abbrev ClassifyResult : Type :=
  List Nat × List Nat × List (List Nat) × List Nat

/-- The `while` loop of `fix_file` (source lines 38-45), with explicit
fuel.  State: the current `line`, the unread `rest` of the stream, and
the accumulators `before`, `after` (byte strings) and `file_header`
(list of stripped header lines).  On loop exit the final component is
`line + f.read()`, i.e. `line ++ rest` (source line 48). -/
def classifyLoop (pre : List Nat) (kb ka : List (List Nat)) :
    Nat → List Nat → List Nat → List Nat → List Nat → List (List Nat) →
    Option ClassifyResult
  | 0, _, _, _, _, _ => none
  | fuel + 1, line, rest, before, after, file_header =>
    if startswith pre line || kb.any (fun s => startswith s line) then
      let p := readline rest
      if kb.any (fun s => startswith s line) then
        classifyLoop pre kb ka fuel p.1 p.2 (before ++ line) after file_header
      else if ka.any (fun s => startswith s line) then
        classifyLoop pre kb ka fuel p.1 p.2 before (after ++ line) file_header
      else
        classifyLoop pre kb ka fuel p.1 p.2 before after
          (file_header ++ [strip (line.drop pre.length)])
    else
      some (before, after, file_header, line ++ rest)

/-- Run the classification loop of `fix_file` on a whole input stream:
read the first line, then loop, with fuel `input.length + 1` (proved
sufficient whenever the loop terminates at all). -/
def classify_file (input pre : List Nat) (kb ka : List (List Nat)) :
    Option ClassifyResult :=
  let p := readline input
  classifyLoop pre kb ka (input.length + 1) p.1 p.2 [] [] []

/-- Line-ending detection of `fix_file` (source lines 29-33): two-byte
ending when the first line ends with it, one-byte ending otherwise. -/
def detect_le (input : List Nat) : List Nat :=
  if endswith [13, 10] (readline input).1 then [13, 10] else [10]

/-- The header block written by the rewrite branch (source lines 60-61):
each canonical header line with the comment prefix prepended and the
detected line ending appended, in canonical order. -/
def hjoin (header_lines : List (List Nat)) (pre le : List Nat) : List Nat :=
  (header_lines.map (fun l => pre ++ l ++ le)).flatten

/-- Everything the rewrite branch writes after `before` (source lines
60-67): the header block, then a separator and the `after` bytes when
`after` is non-empty, then a separator when `file_contents` is non-empty
and does not already start with the line ending, then `file_contents`. -/
def rendered (header_lines : List (List Nat)) (pre le after fc : List Nat) :
    List Nat :=
  hjoin header_lines pre le ++
    (if after = [] then [] else le ++ after) ++
    (if fc ≠ [] ∧ startswith le fc = false then le else []) ++ fc

/-- The core operation (source lines 24-69).  Returns `some (status,
content)` where `status` is the Python return value (0 unmodified, 1
modified) and `content` the bytes of the stream afterwards; `none` when
the classification loop does not terminate within the canonical fuel. -/
def fix_file (input : List Nat) (header_lines : List (List Nat))
    (pre : List Nat) (kb ka : List (List Nat)) : Option (Nat × List Nat) :=
  match classify_file input pre kb ka with
  | none => none
  | some (before, after, file_header, fc) =>
    if file_header = header_lines ∧
        (fc = [] ∨ startswith (detect_le input) fc = true) then
      some (0, input)
    else
      some (1, before ++ rendered header_lines pre (detect_le input) after fc)

/-- The names of the files `fix_file` modifies (status 1), in argument
order.  Files are `(name, content)` pairs with numeric names. -/
def modified_names (header_lines : List (List Nat)) (pre : List Nat)
    (kb ka : List (List Nat)) : List (Nat × List Nat) → List Nat
  | [] => []
  | (name, content) :: rest =>
    (match fix_file content header_lines pre kb ka with
      | some (1, _) => [name]
      | _ => []) ++ modified_names header_lines pre kb ka rest

/-- The per-file loop of `main` (source lines 187-212): fold
`return_value |= status` over the files, recording the name of each file
whose status is non-zero (the ones whose paths `main` prints).  Returns
`(exit code, printed names)`. -/
def main_loop (header_lines : List (List Nat)) (pre : List Nat)
    (kb ka : List (List Nat)) :
    List (Nat × List Nat) → Nat → Option (Nat × List Nat)
  | [], rv => some (rv, [])
  | (name, content) :: rest, rv =>
    match fix_file content header_lines pre kb ka with
    | none => none
    | some (st, _) =>
      match main_loop header_lines pre kb ka rest (Nat.lor rv st) with
      | none => none
      | some (code, printed) =>
        some (code, (if st ≠ 0 then [name] else []) ++ printed)

/-- `main` on a list of `(name, content)` files with an explicit comment
prefix: process every file starting from `return_value = 0`, then exit
with the accumulated code (source line 214). -/
def main_run (files : List (Nat × List Nat)) (header_lines : List (List Nat))
    (pre : List Nat) (kb ka : List (List Nat)) : Option (Nat × List Nat) :=
  main_loop header_lines pre kb ka files 0

/-- Proof-support view of the classification loop: run it on a whole
remaining stream (reading the first line first), with given fuel and
accumulators.  `classify_file input pre kb ka = runFrom pre kb ka
(input.length + 1) input [] [] []` by definition. -/
def runFrom (pre : List Nat) (kb ka : List (List Nat)) (fuel : Nat)
    (stream before after : List Nat) (file_header : List (List Nat)) :
    Option ClassifyResult :=
  classifyLoop pre kb ka fuel (readline stream).1 (readline stream).2
    before after file_header

/-! ### Basic lemmas about the byte-string primitives -/

theorem startswith_self_append (s t : List Nat) :
    startswith s (s ++ t) = true := by
  induction s with
  | nil => rfl
  | cons a s ih => simp [startswith, ih]

theorem startswith_eq_true_iff {s l : List Nat} :
    startswith s l = true ↔ ∃ t, l = s ++ t := by
  constructor
  · intro h
    induction s generalizing l with
    | nil => exact ⟨l, rfl⟩
    | cons a s ih =>
      cases l with
      | nil => simp [startswith] at h
      | cons b l =>
        simp only [startswith] at h
        by_cases hab : a = b
        · rw [if_pos hab] at h
          obtain ⟨t, ht⟩ := ih h
          exact ⟨t, by simp [← hab, ht]⟩
        · rw [if_neg hab] at h
          exact absurd h (by simp)
  · rintro ⟨t, rfl⟩
    exact startswith_self_append s t

theorem startswith_nil_right {s : List Nat} (h : s ≠ []) :
    startswith s [] = false := by
  cases s with
  | nil => exact absurd rfl h
  | cons a s => rfl

theorem startswith_cons_ne {a b : Nat} (s l : List Nat) (h : a ≠ b) :
    startswith (a :: s) (b :: l) = false := by
  simp [startswith, if_neg h]

theorem any_startswith_nil {kb : List (List Nat)}
    (h : ∀ s ∈ kb, s ≠ []) :
    kb.any (fun s => startswith s []) = false := by
  simp only [List.any_eq_false]
  intro s hs
  simp [startswith_nil_right (h s hs)]

theorem readline_append (l : List Nat) :
    (readline l).1 ++ (readline l).2 = l := by
  induction l with
  | nil => rfl
  | cons b rest ih =>
    by_cases hb : b = 10
    · subst hb; rfl
    · simp only [readline, if_neg hb]
      simpa using ih

theorem readline_length (l : List Nat) :
    (readline l).1.length + (readline l).2.length = l.length := by
  have h := congrArg List.length (readline_append l)
  simpa using h

theorem readline_append_ten {a : List Nat} (h : 10 ∉ a) (r : List Nat) :
    readline (a ++ 10 :: r) = (a ++ [10], r) := by
  induction a with
  | nil => rfl
  | cons b a ih =>
    have hb : b ≠ 10 := fun hb => h (by simp [hb])
    have ha : 10 ∉ a := fun ha => h (List.mem_cons_of_mem _ ha)
    simp only [List.cons_append, readline, if_neg hb, List.append_eq, ih ha]

theorem readline_nil : readline [] = ([], []) := rfl

/-! ### Lemmas about stripping whitespace -/

theorem dropWhile_append_of_ne_nil {p : Nat → Bool} {xs : List Nat}
    (h : xs.dropWhile p ≠ []) (ys : List Nat) :
    (xs ++ ys).dropWhile p = xs.dropWhile p ++ ys := by
  induction xs with
  | nil => exact absurd rfl h
  | cons x xs ih =>
    by_cases hx : p x = true
    · rw [List.dropWhile_cons_of_pos hx] at h
      simp only [List.cons_append, List.dropWhile_cons_of_pos hx, ih h]
    · have hx' : p x = false := by simpa using hx
      simp [List.cons_append, List.dropWhile_cons_of_neg, hx']

theorem dropWhile_append_of_all {p : Nat → Bool} {xs : List Nat}
    (h : ∀ x ∈ xs, p x = true) (ys : List Nat) :
    (xs ++ ys).dropWhile p = ys.dropWhile p := by
  induction xs with
  | nil => rfl
  | cons x xs ih =>
    have hx : p x = true := h x (List.mem_cons_self x xs)
    simp only [List.cons_append, List.dropWhile_cons_of_pos hx]
    exact ih fun y hy => h y (List.mem_cons_of_mem _ hy)

theorem rstrip_append_ws {ws : List Nat}
    (hws : ∀ x ∈ ws, isspace x = true) (l : List Nat) :
    rstrip (l ++ ws) = rstrip l := by
  unfold rstrip
  rw [List.reverse_append,
    dropWhile_append_of_all (by intro x hx; exact hws x (by simpa using hx))]

theorem strip_append_ws {l ws : List Nat} (hl : strip l = l)
    (hws : ∀ x ∈ ws, isspace x = true) :
    strip (l ++ ws) = l := by
  unfold strip lstrip
  by_cases hnil : l.dropWhile isspace = []
  · have hall : ∀ x ∈ l, isspace x = true := List.dropWhile_eq_nil_iff.mp hnil
    have hl0 : l = [] := by
      have : strip l = rstrip [] := by unfold strip lstrip; rw [hnil]
      rw [hl] at this
      simpa [rstrip] using this.symm
    subst hl0
    simp only [List.nil_append]
    rw [List.dropWhile_eq_nil_iff.mpr hws]
    rfl
  · rw [dropWhile_append_of_ne_nil hnil, rstrip_append_ws hws]
    have : strip l = l := hl
    unfold strip lstrip at this
    exact this

theorem strip_append_le {l le : List Nat} (hl : strip l = l)
    (hle : le = [10] ∨ le = [13, 10]) : strip (l ++ le) = l := by
  rcases hle with h | h <;> subst h
  · exact strip_append_ws hl (by
      intro x hx
      simp only [List.mem_singleton] at hx
      subst hx; decide)
  · exact strip_append_ws hl (by
      intro x hx
      simp only [List.mem_cons, List.not_mem_nil, or_false] at hx
      rcases hx with h | h <;> subst h <;> decide)

/-! ### One-step behaviour of the classification loop -/

theorem classifyLoop_step_before {pre : List Nat} {kb ka : List (List Nat)}
    {line : List Nat} (fuel : Nat) (rest before after : List Nat)
    (file_header : List (List Nat))
    (hkb : kb.any (fun s => startswith s line) = true) :
    classifyLoop pre kb ka (fuel + 1) line rest before after file_header =
      classifyLoop pre kb ka fuel (readline rest).1 (readline rest).2
        (before ++ line) after file_header := by
  simp only [classifyLoop, hkb, Bool.or_true, if_true]

theorem classifyLoop_step_after {pre : List Nat} {kb ka : List (List Nat)}
    {line : List Nat} (fuel : Nat) (rest before after : List Nat)
    (file_header : List (List Nat))
    (hkb : kb.any (fun s => startswith s line) = false)
    (hka : ka.any (fun s => startswith s line) = true)
    (hpre : startswith pre line = true) :
    classifyLoop pre kb ka (fuel + 1) line rest before after file_header =
      classifyLoop pre kb ka fuel (readline rest).1 (readline rest).2
        before (after ++ line) file_header := by
  simp only [classifyLoop, hkb, hka, hpre, Bool.true_or, if_true,
    Bool.false_eq_true, if_false]

theorem classifyLoop_step_header {pre : List Nat} {kb ka : List (List Nat)}
    {line : List Nat} (fuel : Nat) (rest before after : List Nat)
    (file_header : List (List Nat))
    (hkb : kb.any (fun s => startswith s line) = false)
    (hka : ka.any (fun s => startswith s line) = false)
    (hpre : startswith pre line = true) :
    classifyLoop pre kb ka (fuel + 1) line rest before after file_header =
      classifyLoop pre kb ka fuel (readline rest).1 (readline rest).2
        before after (file_header ++ [strip (line.drop pre.length)]) := by
  simp only [classifyLoop, hkb, hka, hpre, Bool.true_or, if_true,
    Bool.false_eq_true, if_false]

theorem classifyLoop_exit {pre : List Nat} {kb ka : List (List Nat)}
    {line : List Nat} (fuel : Nat) (rest before after : List Nat)
    (file_header : List (List Nat))
    (hpre : startswith pre line = false)
    (hkb : kb.any (fun s => startswith s line) = false) :
    classifyLoop pre kb ka (fuel + 1) line rest before after file_header =
      some (before, after, file_header, line ++ rest) := by
  simp only [classifyLoop, hpre, hkb, Bool.or_self, Bool.false_eq_true,
    if_false]

/-! ### Fuel sufficiency: the loop terminates whenever the comment
prefix is non-empty and no keep-before entry is empty -/

theorem classifyLoop_isSome {pre : List Nat} {kb ka : List (List Nat)}
    (hpre : pre ≠ []) (hkb : ∀ s ∈ kb, s ≠ []) :
    ∀ fuel line rest before after file_header,
      line.length + rest.length < fuel →
      (classifyLoop pre kb ka fuel line rest before after
        file_header).isSome := by
  intro fuel
  induction fuel with
  | zero => intro line rest _ _ _ h; omega
  | succ n ih =>
    intro line rest before after file_header hlen
    by_cases hcond :
        (startswith pre line || kb.any (fun s => startswith s line)) = true
    · have hline : line ≠ [] := by
        intro h0
        subst h0
        rw [startswith_nil_right hpre, any_startswith_nil hkb] at hcond
        simp at hcond
      have hlen' : (readline rest).1.length + (readline rest).2.length <
          n := by
        rw [readline_length]
        have : 1 ≤ line.length := by
          cases line with
          | nil => exact absurd rfl hline
          | cons a l => simp
        omega
      simp only [classifyLoop, hcond, if_true]
      by_cases h1 : kb.any (fun s => startswith s line) = true
      · rw [if_pos h1]; exact ih _ _ _ _ _ hlen'
      · rw [if_neg h1]
        by_cases h2 : ka.any (fun s => startswith s line) = true
        · rw [if_pos h2]; exact ih _ _ _ _ _ hlen'
        · rw [if_neg h2]; exact ih _ _ _ _ _ hlen'
    · have hcond' :
          (startswith pre line || kb.any (fun s => startswith s line))
            = false := by simpa using hcond
      simp only [classifyLoop, hcond', Bool.false_eq_true, if_false,
        Option.isSome_some]

theorem classify_file_isSome {input pre : List Nat} {kb ka : List (List Nat)}
    (hpre : pre ≠ []) (hkb : ∀ s ∈ kb, s ≠ []) :
    (classify_file input pre kb ka).isSome := by
  unfold classify_file
  exact classifyLoop_isSome hpre hkb _ _ _ _ _ _
    (by rw [readline_length]; omega)

/-- With no keep-before entries the loop never extends `before`. -/
theorem classifyLoop_before_eq {pre : List Nat} {ka : List (List Nat)} :
    ∀ fuel line rest before after file_header b' a' h' fc,
      classifyLoop pre [] ka fuel line rest before after file_header =
        some (b', a', h', fc) → b' = before := by
  intro fuel
  induction fuel with
  | zero => intro line rest before after file_header b' a' h' fc h
            simp [classifyLoop] at h
  | succ n ih =>
    intro line rest before after file_header b' a' h' fc h
    simp only [classifyLoop, List.any_nil, Bool.or_false, Bool.false_eq_true,
      if_false] at h
    by_cases hcond : startswith pre line = true
    · rw [if_pos hcond] at h
      by_cases h2 : ka.any (fun s => startswith s line) = true
      · rw [if_pos h2] at h; exact ih _ _ _ _ _ _ _ _ _ h
      · rw [if_neg h2] at h; exact ih _ _ _ _ _ _ _ _ _ h
    · rw [if_neg hcond] at h
      injection h with h
      exact (congrArg Prod.fst h).symm

/-! ### Line-ending detection lemmas -/

theorem endswith_crlf_append (x : List Nat) :
    endswith [13, 10] (x ++ [13, 10]) = true := by
  simp [endswith, startswith, List.reverse_append]

theorem startswith_cr_reverse {x : List Nat} (h13 : 13 ∉ x) :
    startswith [13] x.reverse = false := by
  cases hx : x.reverse with
  | nil => rfl
  | cons c t =>
    have hc : c ∈ x := by
      have hmem : c ∈ x.reverse := by rw [hx]; exact List.mem_cons_self c t
      simpa using hmem
    have hne : (13 : Nat) ≠ c := fun h => h13 (h ▸ hc)
    simp [startswith, if_neg hne]

theorem endswith_crlf_lf {x : List Nat} (h13 : 13 ∉ x) :
    endswith [13, 10] (x ++ [10]) = false := by
  unfold endswith
  rw [List.reverse_append]
  simp only [List.reverse_cons, List.reverse_nil, List.nil_append,
    List.singleton_append]
  simp only [startswith, if_pos rfl]
  exact startswith_cr_reverse h13

/-! ### Non-termination of the Python loop with an empty comment
prefix: at end of file, `line = b'' ` still satisfies
`line.startswith(b'')`, so the loop body runs forever.  In the fuel
model the loop returns `none` for every fuel. -/

theorem classifyLoop_empty_pre_none :
    ∀ fuel (line rest before after : List Nat)
      (file_header : List (List Nat)),
      classifyLoop [] [] [] fuel line rest before after file_header =
        none := by
  intro fuel
  induction fuel with
  | zero => intros; rfl
  | succ n ih =>
    intro line rest before after file_header
    simp only [classifyLoop, startswith, List.any_nil, Bool.or_false,
      if_true, Bool.false_eq_true, if_false]
    exact ih _ _ _ _ _

/-! ### Consuming a rendered header block -/

theorem readline_header_line {pre l le : List Nat} (T : List Nat)
    (h10pre : 10 ∉ pre) (h10l : 10 ∉ l)
    (hle : le = [10] ∨ le = [13, 10]) :
    readline ((pre ++ l ++ le) ++ T) = (pre ++ l ++ le, T) := by
  have h10 : 10 ∉ pre ++ l := by
    intro h
    rcases List.mem_append.mp h with h | h
    · exact h10pre h
    · exact h10l h
  rcases hle with h | h <;> subst h
  · have : (pre ++ l ++ [10]) ++ T = (pre ++ l) ++ 10 :: T := by
      simp
    rw [this, readline_append_ten h10]
  · have h10' : 10 ∉ pre ++ l ++ [13] := by
      intro hmem
      rcases List.mem_append.mp hmem with hmem | hmem
      · exact h10 hmem
      · simp at hmem
    have : (pre ++ l ++ [13, 10]) ++ T = (pre ++ l ++ [13]) ++ 10 :: T := by
      simp
    rw [this, readline_append_ten h10']
    simp

theorem runFrom_consume_one {pre l le : List Nat} {ka : List (List Nat)}
    (T : List Nat)
    (h10pre : 10 ∉ pre) (h10l : 10 ∉ l) (hstrip : strip l = l)
    (hle : le = [10] ∨ le = [13, 10])
    (hka : ka.any (fun s => startswith s (pre ++ l ++ le)) = false)
    (fuel : Nat) (before after : List Nat)
    (file_header : List (List Nat)) :
    runFrom pre [] ka (fuel + 1) ((pre ++ l ++ le) ++ T) before after
        file_header =
      runFrom pre [] ka fuel T before after (file_header ++ [l]) := by
  have hread : readline ((pre ++ l ++ le) ++ T) = (pre ++ l ++ le, T) :=
    readline_header_line T h10pre h10l hle
  have hpre : startswith pre (pre ++ l ++ le) = true := by
    rw [List.append_assoc]
    exact startswith_self_append pre (l ++ le)
  have hdrop : (pre ++ l ++ le).drop pre.length = l ++ le := by
    rw [List.append_assoc]
    exact List.drop_left pre (l ++ le)
  unfold runFrom
  rw [hread]
  rw [classifyLoop_step_header fuel T before after file_header
    (by simp) hka hpre]
  rw [hdrop, strip_append_le hstrip hle]

theorem runFrom_consume_all {pre le : List Nat} {ka : List (List Nat)}
    (h10pre : 10 ∉ pre)
    (hle : le = [10] ∨ le = [13, 10]) :
    ∀ (hl : List (List Nat)) (T : List Nat) (fuel : Nat)
      (before after : List Nat) (file_header : List (List Nat)),
      (∀ l ∈ hl, strip l = l ∧ 10 ∉ l ∧ 13 ∉ l) →
      (∀ s ∈ ka, ∀ l ∈ hl, startswith s (pre ++ l ++ le) = false) →
      runFrom pre [] ka (hl.length + fuel) (hjoin hl pre le ++ T) before
          after file_header =
        runFrom pre [] ka fuel T before after (file_header ++ hl) := by
  intro hl
  induction hl with
  | nil =>
    intro T fuel before after file_header _ _
    simp [hjoin]
  | cons l tl ih =>
    intro T fuel before after file_header hprops hka
    have hl_props := hprops l (List.mem_cons_self l tl)
    have hany : ka.any (fun s => startswith s (pre ++ l ++ le)) = false := by
      simp only [List.any_eq_false]
      intro s hs
      simp only [Bool.not_eq_true]
      exact hka s hs l (List.mem_cons_self l tl)
    have hsplit : hjoin (l :: tl) pre le ++ T =
        (pre ++ l ++ le) ++ (hjoin tl pre le ++ T) := by
      simp [hjoin]
    have hlen : (l :: tl).length + fuel = (tl.length + fuel) + 1 := by
      simp [List.length_cons]; omega
    rw [hsplit, hlen,
      runFrom_consume_one (hjoin tl pre le ++ T) h10pre hl_props.2.1
        hl_props.1 hle hany (tl.length + fuel) before after file_header,
      ih T fuel before after (file_header ++ [l])
        (fun x hx => hprops x (List.mem_cons_of_mem _ hx))
        (fun s hs x hx => hka s hs x (List.mem_cons_of_mem _ hx))]
    simp

/-! ### Loop exit right after the rendered header block -/

theorem runFrom_exit {pre : List Nat} {ka : List (List Nat)}
    (hpre : pre ≠ []) (h10 : 10 ∉ pre) (h13 : 13 ∉ pre)
    {T : List Nat}
    (hT : T = [] ∨ ∃ c t, T = c :: t ∧ (c = 10 ∨ c = 13))
    {fuel : Nat} (hfuel : 0 < fuel) (before after : List Nat)
    (file_header : List (List Nat)) :
    runFrom pre [] ka fuel T before after file_header =
      some (before, after, file_header, T) := by
  obtain ⟨f, rfl⟩ : ∃ f, fuel = f + 1 := ⟨fuel - 1, by omega⟩
  have hsw : startswith pre (readline T).1 = false := by
    rcases hT with rfl | ⟨c, t, rfl, hc⟩
    · rw [readline_nil]; exact startswith_nil_right hpre
    · cases pre with
      | nil => exact absurd rfl hpre
      | cons p ps =>
        have hp : p ≠ c := by
          rcases hc with rfl | rfl
          · exact fun h => h10 (h ▸ List.mem_cons_self p ps)
          · exact fun h => h13 (h ▸ List.mem_cons_self p ps)
        by_cases h : c = 10
        · subst h
          simp only [readline, if_pos rfl]
          exact startswith_cons_ne ps _ hp
        · simp only [readline, if_neg h]
          exact startswith_cons_ne ps _ hp
  unfold runFrom
  rw [classifyLoop_exit f _ _ _ _ hsw (by simp), readline_append]

theorem hjoin_length_ge {hl : List (List Nat)} {pre le : List Nat}
    (hle : le ≠ []) : hl.length ≤ (hjoin hl pre le).length := by
  induction hl with
  | nil => simp [hjoin]
  | cons l tl ih =>
    have hpos : 0 < le.length := List.length_pos.mpr hle
    simp only [hjoin, List.map_cons, List.flatten_cons, List.length_append,
      List.length_cons] at ih ⊢
    omega

/-! ### A freshly rendered file passes the match check -/

theorem fix_file_rendered {pre le : List Nat} {ka : List (List Nat)}
    {hl : List (List Nat)}
    (hpre : pre ≠ []) (h10pre : 10 ∉ pre) (h13pre : 13 ∉ pre)
    (hprops : ∀ l ∈ hl, strip l = l ∧ 10 ∉ l ∧ 13 ∉ l)
    (hka : ∀ s ∈ ka, ∀ l ∈ hl, startswith s (pre ++ l ++ le) = false)
    (hle : le = [10] ∨ le = [13, 10])
    (after fc : List Nat) :
    fix_file (rendered hl pre le after fc) hl pre [] ka =
      some (0, rendered hl pre le after fc) := by
  have hlene : le ≠ [] := by rcases hle with h | h <;> subst h <;> simp
  set T : List Nat :=
    (if after = [] then [] else le ++ after) ++
      (if fc ≠ [] ∧ startswith le fc = false then le else []) ++ fc with hT
  have hR : rendered hl pre le after fc = hjoin hl pre le ++ T := by
    simp [rendered, hT]
  -- either the tail is empty, or it starts with the line ending
  have hTmatch : T = [] ∨ ∃ t, T = le ++ t := by
    by_cases hafter : after = []
    · by_cases hfc : fc = []
      · subst hfc
        left
        simp [hT, hafter]
      · by_cases hsw : startswith le fc = true
        · obtain ⟨t, ht⟩ := startswith_eq_true_iff.mp hsw
          right
          refine ⟨t, ?_⟩
          have hcondF : ¬(fc ≠ [] ∧ startswith le fc = false) := by
            intro hcontra
            rw [hsw] at hcontra
            simp at hcontra
          rw [hT, if_pos hafter, if_neg hcondF, ht]
          simp
        · right
          refine ⟨fc, ?_⟩
          have hsw' : startswith le fc = false := by simpa using hsw
          simp [hT, hafter, hfc, hsw']
    · right
      exact ⟨after ++ ((if fc ≠ [] ∧ startswith le fc = false then le
        else []) ++ fc), by simp [hT, hafter]⟩
  have hTshape : T = [] ∨ ∃ c t, T = c :: t ∧ (c = 10 ∨ c = 13) := by
    rcases hTmatch with h | ⟨t, ht⟩
    · exact Or.inl h
    · right
      rcases hle with h | h <;> subst h
      · exact ⟨10, t, by simpa using ht, Or.inl rfl⟩
      · exact ⟨13, 10 :: t, by simpa using ht, Or.inr rfl⟩
  -- the classification loop recovers exactly the canonical header
  have hclass : classify_file (rendered hl pre le after fc) pre [] ka =
      some ([], [], hl, T) := by
    have hlen : hl.length ≤ (rendered hl pre le after fc).length := by
      rw [hR]
      calc hl.length ≤ (hjoin hl pre le).length := hjoin_length_ge hlene
        _ ≤ (hjoin hl pre le ++ T).length := by simp
    have hfuel : (rendered hl pre le after fc).length + 1 =
        hl.length + ((rendered hl pre le after fc).length + 1 -
          hl.length) := by omega
    show runFrom pre [] ka ((rendered hl pre le after fc).length + 1)
        (rendered hl pre le after fc) [] [] [] = some ([], [], hl, T)
    have hlen2 : hl.length ≤ (hjoin hl pre le ++ T).length := by
      rw [← hR]; exact hlen
    rw [hfuel, hR, runFrom_consume_all h10pre hle hl T _ [] [] [] hprops hka,
      List.nil_append]
    exact runFrom_exit hpre h10pre h13pre hTshape (by omega) [] [] hl
  -- the detected line ending of the rendered file
  have hdetect : T ≠ [] → detect_le (rendered hl pre le after fc) = le := by
    intro hTne
    cases hl with
    | cons l0 tl =>
      have h0 := hprops l0 (List.mem_cons_self l0 tl)
      have hread : readline (rendered (l0 :: tl) pre le after fc) =
          (pre ++ l0 ++ le, hjoin tl pre le ++ T) := by
        rw [hR]
        have : hjoin (l0 :: tl) pre le ++ T =
            (pre ++ l0 ++ le) ++ (hjoin tl pre le ++ T) := by
          simp [hjoin]
        rw [this]
        exact readline_header_line _ h10pre h0.2.1 hle
      have h13x : 13 ∉ pre ++ l0 := by
        intro hmem
        rcases List.mem_append.mp hmem with hmem | hmem
        · exact h13pre hmem
        · exact h0.2.2 hmem
      unfold detect_le
      rw [hread]
      show (if endswith [13, 10] (pre ++ l0 ++ le) = true then [13, 10]
        else [10]) = le
      rcases hle with h | h <;> subst h
      · rw [endswith_crlf_lf h13x]
        rfl
      · rw [endswith_crlf_append (pre ++ l0)]
        rfl
    | nil =>
      obtain ⟨t, ht⟩ : ∃ t, T = le ++ t := by
        rcases hTmatch with h | h
        · exact absurd h hTne
        · exact h
      have hRT : rendered [] pre le after fc = T := by
        rw [hR]; simp [hjoin]
      unfold detect_le
      rw [hRT, ht]
      rcases hle with h | h <;> subst h <;> rfl
  -- assemble: the match check passes, no write happens
  have hcond : hl = hl ∧ (T = [] ∨
      startswith (detect_le (rendered hl pre le after fc)) T = true) := by
    refine ⟨rfl, ?_⟩
    rcases hTmatch with h | ⟨t, ht⟩
    · exact Or.inl h
    · right
      have hTne : T ≠ [] := by
        rw [ht]
        rcases hle with h | h <;> subst h <;> simp
      rw [hdetect hTne, ht]
      exact startswith_self_append le t
  simp only [fix_file, hclass]
  rw [if_pos ⟨trivial, hcond.2⟩]

theorem classify_file_before_eq {input pre : List Nat} {ka : List (List Nat)}
    {b a : List Nat} {h : List (List Nat)} {fc : List Nat}
    (hcf : classify_file input pre [] ka = some (b, a, h, fc)) : b = [] :=
  classifyLoop_before_eq _ _ _ _ _ _ _ _ _ _ hcf

theorem detect_le_cases (input : List Nat) :
    detect_le input = [10] ∨ detect_le input = [13, 10] := by
  unfold detect_le
  by_cases h : endswith [13, 10] (readline input).1 = true
  · rw [if_pos h]; right; rfl
  · rw [if_neg h]; left; rfl

/-! ## Claim theorems -/

/-- C1: for every input stream, canonical header, prefix and keep sets on
which the classification loop terminates, `fix_file` returns 0 and leaves
the stream's bytes unchanged if and only if the observed header sequence
equals the canonical header and the remainder is either empty or begins
with the detected line ending. -/
theorem fix_file_noop_iff {input pre : List Nat} {kb ka hl : List (List Nat)}
    {b a : List Nat} {h : List (List Nat)} {fc : List Nat}
    (hcf : classify_file input pre kb ka = some (b, a, h, fc)) :
    fix_file input hl pre kb ka = some (0, input) ↔
      (h = hl ∧ (fc = [] ∨ startswith (detect_le input) fc = true)) := by
  simp only [fix_file, hcf]
  by_cases hcond :
      (h = hl ∧ (fc = [] ∨ startswith (detect_le input) fc = true))
  · rw [if_pos hcond]
    simp [hcond]
  · rw [if_neg hcond]
    constructor
    · intro hcontra
      injection hcontra with h'
      exact absurd (congrArg Prod.fst h') (by simp)
    · intro h'
      exact absurd h' hcond

/-- C1 witness: a file that already carries the canonical header followed
by a blank separator line is reported unmodified with its bytes intact. -/
theorem fix_file_noop_iff_witness :
    fix_file [35, 32, 72, 10, 10, 98, 10] [[72]] [35, 32] [] [] =
      some (0, [35, 32, 72, 10, 10, 98, 10]) :=
  (@fix_file_noop_iff [35, 32, 72, 10, 10, 98, 10] [35, 32] [] [] [[72]]
    [] [] [[72]] [10, 98, 10] (by decide)).mpr (by decide)

/-- C2: on every input on which the classification loop terminates and
the match check fails, `fix_file` returns 1 and the resulting bytes are
exactly: `before` verbatim, then each canonical header line with the
prefix prepended and the detected line ending appended in canonical
order, then (if `after` is non-empty) one line-ending separator followed
by `after` verbatim, then (if the remainder is non-empty and does not
start with the line ending) one line-ending separator, then the
remainder verbatim. -/
theorem fix_file_rewrite_bytes {input pre : List Nat}
    {kb ka hl : List (List Nat)} {b a : List Nat} {h : List (List Nat)}
    {fc : List Nat}
    (hcf : classify_file input pre kb ka = some (b, a, h, fc))
    (hnm : ¬(h = hl ∧ (fc = [] ∨ startswith (detect_le input) fc = true))) :
    fix_file input hl pre kb ka =
      some (1, b ++
        ((hl.map (fun l => pre ++ l ++ detect_le input)).flatten ++
          (if a = [] then [] else detect_le input ++ a) ++
          (if fc ≠ [] ∧ startswith (detect_le input) fc = false
            then detect_le input else []) ++ fc)) := by
  simp only [fix_file, hcf]
  rw [if_neg hnm]
  rfl

/-- C2 witness: a file with a bare body gets the header, one blank
separator and the body written in order. -/
theorem fix_file_rewrite_bytes_witness :
    fix_file [98, 10] [[72]] [35, 32] [] [] =
      some (1, [] ++
        (([[72]].map (fun l => [35, 32] ++ l ++ detect_le [98, 10])).flatten
          ++ (if ([] : List Nat) = [] then []
              else detect_le [98, 10] ++ []) ++
          (if [98, 10] ≠ [] ∧ startswith (detect_le [98, 10]) [98, 10]
              = false then detect_le [98, 10] else []) ++ [98, 10])) :=
  @fix_file_rewrite_bytes [98, 10] [35, 32] [] [] [[72]] [] [] []
    [98, 10] (by decide) (by decide)

/-- C3 counterexample: `fix_file` is not idempotent as claimed for every
input, header, prefix and keep sets.  With prefix `"# "`, keep-before
set `{"# K"}` and canonical header `["K"]`, an empty file is rewritten to
`"# K\n"`; running `fix_file` again classifies the freshly written header
line as a keep-before line, so the second run returns 1 (not 0) and
changes the bytes to `"# K\n# K\n"`. -/
theorem fix_file_not_idempotent :
    fix_file [] [[75]] [35, 32] [[35, 32, 75]] [] =
        some (1, [35, 32, 75, 10]) ∧
      fix_file [35, 32, 75, 10] [[75]] [35, 32] [[35, 32, 75]] [] =
        some (1, [35, 32, 75, 10, 35, 32, 75, 10]) := by
  decide

/-- C3 (amended): `fix_file` is idempotent whenever the comment prefix is
non-empty and free of newline and carriage-return bytes, every canonical
header line is whitespace-stripped and free of newline and
carriage-return bytes, the keep-before set is empty, and no keep-after
entry matches a written header line.  Under these conditions a second
application returns 0 and leaves the bytes of the first application's
output unchanged. -/
theorem fix_file_idempotent {pre : List Nat} {ka hl : List (List Nat)}
    (hpre : pre ≠ []) (h10pre : 10 ∉ pre) (h13pre : 13 ∉ pre)
    (hprops : ∀ l ∈ hl, strip l = l ∧ 10 ∉ l ∧ 13 ∉ l)
    (hka : ∀ s ∈ ka, ∀ l ∈ hl,
      startswith s (pre ++ l ++ [10]) = false ∧
        startswith s (pre ++ l ++ [13, 10]) = false)
    (input : List Nat) (st : Nat) (out : List Nat)
    (hrun : fix_file input hl pre [] ka = some (st, out)) :
    fix_file out hl pre [] ka = some (0, out) := by
  rcases hcf : classify_file input pre [] ka with _ | ⟨b, a, h, fc⟩
  · simp only [fix_file, hcf] at hrun
    exact Option.noConfusion hrun
  · have hb : b = [] := classify_file_before_eq hcf
    subst hb
    simp only [fix_file, hcf] at hrun
    by_cases hcond :
        (h = hl ∧ (fc = [] ∨ startswith (detect_le input) fc = true))
    · rw [if_pos hcond] at hrun
      injection hrun with h'
      have hout : input = out := congrArg Prod.snd h'
      subst hout
      simp only [fix_file, hcf]
      rw [if_pos hcond]
    · rw [if_neg hcond] at hrun
      injection hrun with h'
      have hout : [] ++ rendered hl pre (detect_le input) a fc = out :=
        congrArg Prod.snd h'
      rw [List.nil_append] at hout
      subst hout
      have hkale : ∀ s ∈ ka, ∀ l ∈ hl,
          startswith s (pre ++ l ++ detect_le input) = false := by
        rcases detect_le_cases input with hd | hd <;> rw [hd] <;>
          intro s hs l hli
        · exact (hka s hs l hli).1
        · exact (hka s hs l hli).2
      exact fix_file_rendered hpre h10pre h13pre hprops hkale
        (detect_le_cases input) a fc

/-- C3 witness: rewriting the file `"b\n"` once gives
`"# H\n\nb\n"`; a second run on that output is a no-op. -/
theorem fix_file_idempotent_witness :
    fix_file [35, 32, 72, 10, 10, 98, 10] [[72]] [35, 32] [] [] =
      some (0, [35, 32, 72, 10, 10, 98, 10]) :=
  fix_file_idempotent (by decide) (by decide) (by decide) (by decide)
    (by decide) [98, 10] 1 [35, 32, 72, 10, 10, 98, 10] (by decide)

/-- C4: classification of a leading line is mutually exclusive and
ordered, on the raw line before prefix stripping: a line matching a
keep-before prefix is appended to `before` and never treated as header
or keep-after (even when it also starts with the comment prefix); of the
remaining lines, one matching a keep-after prefix is appended to `after`
rather than treated as header. -/
theorem classify_keep_priority {pre : List Nat} {kb ka : List (List Nat)}
    (line rest before after : List Nat) (fh : List (List Nat))
    (fuel : Nat) :
    (kb.any (fun s => startswith s line) = true →
      classifyLoop pre kb ka (fuel + 1) line rest before after fh =
        classifyLoop pre kb ka fuel (readline rest).1 (readline rest).2
          (before ++ line) after fh) ∧
    (kb.any (fun s => startswith s line) = false →
      ka.any (fun s => startswith s line) = true →
      startswith pre line = true →
      classifyLoop pre kb ka (fuel + 1) line rest before after fh =
        classifyLoop pre kb ka fuel (readline rest).1 (readline rest).2
          before (after ++ line) fh) :=
  ⟨fun hkb => classifyLoop_step_before fuel rest before after fh hkb,
   fun hkb hka hp => classifyLoop_step_after fuel rest before after fh
     hkb hka hp⟩

/-- C4 witness: the line `"# K\n"` matches both the comment prefix
`"# "` and the keep-before prefix `"# K"`; it goes to `before`, and a
line matching only the keep-after prefix goes to `after`. -/
theorem classify_keep_priority_witness :
    (classifyLoop [35, 32] [[35, 32, 75]] [] 1 [35, 32, 75, 10] [] [] [] []
        = classifyLoop [35, 32] [[35, 32, 75]] [] 0 [] []
            ([] ++ [35, 32, 75, 10]) [] []) ∧
    (classifyLoop [35, 32] [] [[35, 32, 65]] 1 [35, 32, 65, 10] [] [] [] []
        = classifyLoop [35, 32] [] [[35, 32, 65]] 0 [] [] []
            ([] ++ [35, 32, 65, 10]) []) :=
  ⟨(classify_keep_priority [35, 32, 75, 10] [] [] [] [] 0).1 (by decide),
   (classify_keep_priority [35, 32, 65, 10] [] [] [] [] 0).2 (by decide)
     (by decide) (by decide)⟩

/-- C5: when a rewrite happens and the keep-after accumulator is
non-empty, the output places the `after` bytes verbatim immediately
following the written header block, separated from the last header line
by exactly one line-ending; and each keep-after line is appended at the
end of the accumulator, so keep-after lines keep their original relative
order. -/
theorem keep_after_placement {input pre : List Nat}
    {kb ka hl : List (List Nat)} {b a : List Nat} {h : List (List Nat)}
    {fc : List Nat}
    (hcf : classify_file input pre kb ka = some (b, a, h, fc))
    (hane : a ≠ [])
    (hnm : ¬(h = hl ∧ (fc = [] ∨ startswith (detect_le input) fc = true))) :
    (fix_file input hl pre kb ka =
      some (1, b ++ (hjoin hl pre (detect_le input) ++
        (detect_le input ++ a) ++
        (if fc ≠ [] ∧ startswith (detect_le input) fc = false
          then detect_le input else []) ++ fc))) ∧
    (∀ (line rest before after : List Nat) (fh : List (List Nat))
        (fuel : Nat),
      kb.any (fun s => startswith s line) = false →
      ka.any (fun s => startswith s line) = true →
      startswith pre line = true →
      classifyLoop pre kb ka (fuel + 1) line rest before after fh =
        classifyLoop pre kb ka fuel (readline rest).1 (readline rest).2
          before (after ++ line) fh) := by
  constructor
  · simp only [fix_file, hcf]
    rw [if_neg hnm]
    unfold rendered
    rw [if_neg hane]
  · intro line rest before after fh fuel hkb hka hp
    exact classifyLoop_step_after fuel rest before after fh hkb hka hp

/-- C5 witness: the keep-after line `"# K\n"` of `"# K\n# H\nb\n"` is
placed right after the header block with one separating line ending. -/
theorem keep_after_placement_witness :
    fix_file [35, 32, 75, 10, 35, 32, 72, 10, 98, 10] [[72]] [35, 32] []
        [[35, 32, 75]] =
      some (1, [] ++ (hjoin [[72]] [35, 32]
          (detect_le [35, 32, 75, 10, 35, 32, 72, 10, 98, 10]) ++
        (detect_le [35, 32, 75, 10, 35, 32, 72, 10, 98, 10] ++
          [35, 32, 75, 10]) ++
        (if [98, 10] ≠ [] ∧ startswith
            (detect_le [35, 32, 75, 10, 35, 32, 72, 10, 98, 10]) [98, 10]
            = false
          then detect_le [35, 32, 75, 10, 35, 32, 72, 10, 98, 10]
          else []) ++ [98, 10])) :=
  (@keep_after_placement [35, 32, 75, 10, 35, 32, 72, 10, 98, 10] [35, 32]
    [] [[35, 32, 75]] [[72]] [] [35, 32, 75, 10] [[72]] [98, 10]
    (by decide) (by decide) (by decide)).1

/-- C6 counterexample: with an empty comment prefix the Python loop does
not terminate (`b''.startswith(b'')` holds at end of file), so the
fuel-indexed model yields no result on an empty input with a non-empty
canonical header; `classifyLoop_empty_pre_none` shows this holds for
every fuel. -/
theorem fix_file_empty_pre_stuck :
    fix_file [] [[104]] [] [] [] = none := by decide

/-- C6 (amended): `fix_file` terminates on every finite input stream
whenever the comment prefix is non-empty and no keep-before entry is the
empty string; with an empty prefix the classification loop never
terminates once it reaches end of file. -/
theorem fix_file_terminates {pre : List Nat} {kb ka : List (List Nat)}
    (hpre : pre ≠ []) (hkb : ∀ s ∈ kb, s ≠ [])
    (input : List Nat) (hl : List (List Nat)) :
    (fix_file input hl pre kb ka).isSome := by
  rcases hcf : classify_file input pre kb ka with _ | ⟨b, a, h, fc⟩
  · have hs := @classify_file_isSome input pre kb ka hpre hkb
    rw [hcf] at hs
    exact absurd hs (by simp)
  · simp only [fix_file, hcf]
    by_cases hcond :
        (h = hl ∧ (fc = [] ∨ startswith (detect_le input) fc = true))
    · rw [if_pos hcond]; rfl
    · rw [if_neg hcond]; rfl

/-- C6 witness: termination on a concrete file with non-empty prefix and
keep sets. -/
theorem fix_file_terminates_witness :
    (fix_file [120, 10] [[72]] [35, 32] [[33]] [[64]]).isSome :=
  fix_file_terminates (by decide) (by decide) [120, 10] [[72]]

/-- C7 counterexample: the HeaderLine appended for `"#  x \n"` with
prefix `"# "` is `"x"`, with both leading and trailing whitespace
stripped (Python `bytes.strip()`), not `" x"` as the claim's
trailing-only stripping would give. -/
theorem header_line_not_rstrip_only :
    classify_file [35, 32, 32, 120, 32, 10] [35, 32] [] [] =
        some ([], [], [[120]], []) ∧
      rstrip ([35, 32, 32, 120, 32, 10].drop 2) = [32, 120] ∧
      ([120] : List Nat) ≠ [32, 120] := by decide

/-- C7 (amended): the HeaderLine appended for a header-classified line
equals that line with the comment prefix removed and whitespace stripped
from both ends (leading whitespace after the prefix is NOT retained). -/
theorem header_line_strip_both {pre : List Nat} {kb ka : List (List Nat)}
    {line : List Nat} (fuel : Nat) (rest before after : List Nat)
    (fh : List (List Nat))
    (hkb : kb.any (fun s => startswith s line) = false)
    (hka : ka.any (fun s => startswith s line) = false)
    (hp : startswith pre line = true) :
    classifyLoop pre kb ka (fuel + 1) line rest before after fh =
      classifyLoop pre kb ka fuel (readline rest).1 (readline rest).2
        before after
        (fh ++ [rstrip (lstrip (line.drop pre.length))]) := by
  rw [classifyLoop_step_header fuel rest before after fh hkb hka hp]
  rfl

/-- C7 witness: one header step on the line `"#  x \n"`. -/
theorem header_line_strip_both_witness :
    classifyLoop [35, 32] [] [] 1 [35, 32, 32, 120, 32, 10] [] [] [] [] =
      classifyLoop [35, 32] [] [] 0 (readline []).1 (readline []).2 [] []
        ([] ++ [rstrip (lstrip ([35, 32, 32, 120, 32, 10].drop
          ([35, 32] : List Nat).length))]) :=
  @header_line_strip_both [35, 32] [] [] [35, 32, 32, 120, 32, 10] 0 []
    [] [] [] (by decide) (by decide) (by decide)

/-- C8: on an empty input, with a non-empty prefix and no empty
keep-before entry, `fix_file` returns 1 and writes exactly the canonical
header lines with the prefix prepended and the one-byte default line
ending appended, with no trailing separator and no body; if the
canonical header is empty the match check passes and the file stays
empty with status 0. -/
theorem fix_file_empty_input {pre : List Nat} {kb ka hl : List (List Nat)}
    (hpre : pre ≠ []) (hkb : ∀ s ∈ kb, s ≠ []) :
    fix_file [] hl pre kb ka =
      if hl = [] then some (0, [])
      else some (1, (hl.map (fun l => pre ++ l ++ [10])).flatten) := by
  have hcf : classify_file [] pre kb ka = some ([], [], [], []) := by
    show classifyLoop pre kb ka 1 [] [] [] [] [] = some ([], [], [], [])
    exact classifyLoop_exit 0 [] [] [] []
      (startswith_nil_right hpre) (any_startswith_nil hkb)
  simp only [fix_file, hcf]
  by_cases hhl : hl = []
  · subst hhl
    rw [if_pos ⟨rfl, Or.inl trivial⟩, if_pos rfl]
  · have hc1 : ¬(([] : List (List Nat)) = hl ∧
        (True ∨ startswith (detect_le []) [] = true)) :=
      fun hc => hhl hc.1.symm
    rw [if_neg hc1, if_neg hhl, show detect_le [] = [10] from rfl]
    simp [rendered, hjoin]

/-- C8 witness: concrete empty file with a one-line header, and with an
empty header. -/
theorem fix_file_empty_input_witness :
    (fix_file [] [[72]] [35, 32] [] [] =
        some (1, ([[72]].map (fun l => [35, 32] ++ l ++ [10])).flatten)) ∧
      fix_file [] [] [35, 32] [] [] = some (0, []) := by
  constructor
  · have h := @fix_file_empty_input [35, 32] [] [] [[72]] (by decide)
      (by decide)
    simpa using h
  · have h := @fix_file_empty_input [35, 32] [] [] [] (by decide)
      (by decide)
    simpa using h

/-- C9: the no-op verdict does not constrain keep-line positions: for
the file `"# H\n#!k\n\nB"` with prefix `"# "`, keep-before `"#!"` and
canonical header `["H"]`, `fix_file` returns 0 leaving the bytes intact,
yet the rewrite branch on the same classification would produce
different bytes with the keep-before line moved ahead of the header. -/
theorem noop_despite_keep_lines :
    fix_file [35, 32, 72, 10, 35, 33, 107, 10, 10, 66] [[72]] [35, 32]
        [[35, 33]] [] =
      some (0, [35, 32, 72, 10, 35, 33, 107, 10, 10, 66]) ∧
    classify_file [35, 32, 72, 10, 35, 33, 107, 10, 10, 66] [35, 32]
        [[35, 33]] [] =
      some ([35, 33, 107, 10], [], [[72]], [10, 66]) ∧
    [35, 33, 107, 10] ++ rendered [[72]] [35, 32]
        (detect_le [35, 32, 72, 10, 35, 33, 107, 10, 10, 66]) [] [10, 66]
      ≠ [35, 32, 72, 10, 35, 33, 107, 10, 10, 66] := by
  decide

theorem fix_file_status {input pre : List Nat} {kb ka hl : List (List Nat)}
    {st : Nat} {out : List Nat}
    (hrun : fix_file input hl pre kb ka = some (st, out)) :
    st = 0 ∨ st = 1 := by
  rcases hcf : classify_file input pre kb ka with _ | ⟨b, a, h, fc⟩
  · simp only [fix_file, hcf] at hrun
    exact Option.noConfusion hrun
  · simp only [fix_file, hcf] at hrun
    by_cases hcond :
        (h = hl ∧ (fc = [] ∨ startswith (detect_le input) fc = true))
    · rw [if_pos hcond] at hrun
      injection hrun with h'
      exact Or.inl (congrArg Prod.fst h').symm
    · rw [if_neg hcond] at hrun
      injection hrun with h'
      exact Or.inr (congrArg Prod.fst h').symm

theorem lor_bits (x y : Nat) (hx : x = 0 ∨ x = 1) (hy : y = 0 ∨ y = 1) :
    (Nat.lor x y = 0 ∨ Nat.lor x y = 1) ∧
      (Nat.lor x y = 0 ↔ x = 0 ∧ y = 0) := by
  rcases hx with rfl | rfl <;> rcases hy with rfl | rfl <;>
    exact ⟨by decide, by decide⟩

theorem main_loop_spec {pre : List Nat} {kb ka hl : List (List Nat)} :
    ∀ (files : List (Nat × List Nat)) (rv : Nat), rv = 0 ∨ rv = 1 →
      ∀ code printed,
        main_loop hl pre kb ka files rv = some (code, printed) →
        (code = 0 ∨ code = 1) ∧
          (code = 0 ↔ rv = 0 ∧ printed = []) ∧
          printed = modified_names hl pre kb ka files := by
  intro files
  induction files with
  | nil =>
    intro rv hrv code printed h
    simp only [main_loop] at h
    injection h with h'
    have hc : rv = code := congrArg Prod.fst h'
    have hp : ([] : List Nat) = printed := congrArg Prod.snd h'
    subst hc
    subst hp
    exact ⟨hrv, by simp, by simp [modified_names]⟩
  | cons f rest ih =>
    obtain ⟨name, content⟩ := f
    intro rv hrv code printed h
    rcases hff : fix_file content hl pre kb ka with _ | ⟨st, out⟩
    · simp only [main_loop, hff] at h
      exact Option.noConfusion h
    · simp only [main_loop, hff] at h
      rcases hml : main_loop hl pre kb ka rest (Nat.lor rv st)
          with _ | ⟨code', printed'⟩
      · simp only [hml] at h
        exact Option.noConfusion h
      · simp only [hml] at h
        injection h with h'
        have hcode : code' = code := congrArg Prod.fst h'
        have hprint : (if st ≠ 0 then [name] else []) ++ printed' =
            printed := congrArg Prod.snd h'
        have hst := fix_file_status hff
        have hlor := lor_bits rv st hrv hst
        obtain ⟨ih1, ih2, ih3⟩ := ih (Nat.lor rv st) hlor.1 code' printed'
          hml
        subst hcode
        rcases hst with rfl | rfl
        · rw [if_neg (by simp : ¬((0 : Nat) ≠ 0)), List.nil_append]
            at hprint
          subst hprint
          refine ⟨ih1, ?_, ?_⟩
          · rw [ih2, hlor.2]
            constructor
            · rintro ⟨⟨h1, _⟩, h2⟩; exact ⟨h1, h2⟩
            · rintro ⟨h1, h2⟩; exact ⟨⟨h1, rfl⟩, h2⟩
          · simpa [modified_names, hff] using ih3
        · rw [if_pos (by simp : ((1 : Nat) ≠ 0))] at hprint
          subst hprint
          refine ⟨ih1, ?_, ?_⟩
          · rw [ih2, hlor.2]
            constructor
            · rintro ⟨⟨_, h1⟩, _⟩; exact absurd h1 (by decide)
            · rintro ⟨_, h2⟩; exact absurd h2 (by simp)
          · simpa [modified_names, hff] using ih3

/-- C10: `main` aggregates per-file results with a bitwise or: the exit
code is 0 when no file in the list was modified and 1 when at least one
was, and the printed names are exactly those of the modified files, in
order. -/
theorem main_exit_code {pre : List Nat} {kb ka hl : List (List Nat)}
    (files : List (Nat × List Nat)) (code : Nat) (printed : List Nat)
    (h : main_run files hl pre kb ka = some (code, printed)) :
    (code = 0 ∨ code = 1) ∧ (code = 0 ↔ printed = []) ∧
      (code = 1 ↔ printed ≠ []) ∧
      printed = modified_names hl pre kb ka files := by
  obtain ⟨h1, h2, h3⟩ := main_loop_spec files 0 (Or.inl rfl) code printed h
  have h2' : code = 0 ↔ printed = [] := by rw [h2]; simp
  refine ⟨h1, h2', ?_, h3⟩
  rcases h1 with rfl | rfl
  · have hp : printed = [] := h2'.mp rfl
    subst hp
    simp
  · have hp : printed ≠ [] := fun hp => absurd (h2'.mpr hp) (by decide)
    simp [hp]

/-- C10 witness: processing an empty file (modified) and an
already-conforming file (unmodified) exits with code 1 and prints only
the modified file's name. -/
theorem main_exit_code_witness :
    ((1 : Nat) = 0 ∨ (1 : Nat) = 1) ∧
      ((1 : Nat) = 0 ↔ ([0] : List Nat) = []) ∧
      ((1 : Nat) = 1 ↔ ([0] : List Nat) ≠ []) ∧
      ([0] : List Nat) = modified_names [[72]] [35, 32] [] []
        [(0, []), (1, [35, 32, 72, 10, 10])] :=
  @main_exit_code [35, 32] [] [] [[72]]
    [(0, []), (1, [35, 32, 72, 10, 10])] 1 [0] (by decide)

end FixLicenseHeader

